import Mathlib

/-!
Verification of the splotch chart-layout core.

The geometry types model the `pointy` crate's `Pt<f32>` and `BBox<f32>`
with rational coordinates; `Edge.split` is translated from
`Edge::split` in `src/page.rs`, `inset` and the `Chart` layout folds
from `src/chart.rs`, the axis structures from `src/axis.rs`, and the
coordinate mappers from `src/plot.rs`.  The crate declares `mod scale`
(src/lib.rs) but `scale.rs` is not among the provided sources, so the
numeric-scale operations (`normalize`, `inverted`, nice-step tick
generation) are modelled from the specification, as noted on each
definition.
-/

namespace Splotch

/-- A point in the plane, modelling `pointy::Pt<f32>` with rational
coordinates. -/
structure Pt where
  x : ℚ
  y : ℚ
deriving DecidableEq, Repr

/-- An axis-aligned bounding box, modelling `pointy::BBox<f32>` by its
extremes. -/
structure BBox where
  xmin : ℚ
  xmax : ℚ
  ymin : ℚ
  ymax : ℚ
deriving DecidableEq, Repr

/-- `BBox::new` applied to two points: the box is the smallest one
containing both, so the stored extremes are normalized with `min`/`max`
(this is how `pointy` builds a box from a point iterator). -/
def BBox.new2 (p q : Pt) : BBox :=
  ⟨min p.x q.x, max p.x q.x, min p.y q.y, max p.y q.y⟩

/-- `BBox::x_span`. -/
def BBox.x_span (b : BBox) : ℚ := b.xmax - b.xmin

/-- `BBox::y_span`. -/
def BBox.y_span (b : BBox) : ℚ := b.ymax - b.ymin

/-- Area of a box. -/
def BBox.area (b : BBox) : ℚ := b.x_span * b.y_span

/-- Point membership in a box (closed region). -/
def BBox.memB (b : BBox) (p : Pt) : Prop :=
  b.xmin ≤ p.x ∧ p.x ≤ b.xmax ∧ b.ymin ≤ p.y ∧ p.y ≤ b.ymax

instance (b : BBox) (p : Pt) : Decidable (b.memB p) := by
  unfold BBox.memB; infer_instance

/-- Point membership in the interior of a box. -/
def BBox.interiorB (b : BBox) (p : Pt) : Prop :=
  b.xmin < p.x ∧ p.x < b.xmax ∧ b.ymin < p.y ∧ p.y < b.ymax

instance (b : BBox) (p : Pt) : Decidable (b.interiorB p) := by
  unfold BBox.interiorB; infer_instance

/-- `Edge` from `src/page.rs`. -/
inductive Edge where
  | Top
  | Left
  | Bottom
  | Right
deriving DecidableEq, Repr

/-- `Edge::split` from `src/page.rs`, translated line by line.  The Rust
function mutates `rect` into the remainder and returns the carved box;
here the result is the pair `(carved, remainder)`.  Note the source has
no clamping of `value`: `h = span - (span - value) = value` always. -/
def Edge.split (e : Edge) (rect : BBox) (value : ℚ) : BBox × BBox :=
  match e with
  | Edge.Top =>
      let y := rect.ymin
      let height := rect.y_span - value
      let h := rect.y_span - height
      let rect' := BBox.new2 ⟨rect.xmin, rect.ymin + h⟩ ⟨rect.xmax, rect.ymax⟩
      (BBox.new2 ⟨rect'.xmin, y⟩ ⟨rect'.xmax, y + h⟩, rect')
  | Edge.Left =>
      let x := rect.xmin
      let width := rect.x_span - value
      let w := rect.x_span - width
      let rect' := BBox.new2 ⟨rect.xmin + w, rect.ymin⟩ ⟨rect.xmax, rect.ymax⟩
      (BBox.new2 ⟨x, rect'.ymin⟩ ⟨x + w, rect'.ymax⟩, rect')
  | Edge.Bottom =>
      let height := rect.y_span - value
      let h := rect.y_span - height
      let y := rect.ymin + height
      let rect' :=
        BBox.new2 ⟨rect.xmin, rect.ymin⟩ ⟨rect.xmax, rect.ymin + height⟩
      (BBox.new2 ⟨rect'.xmin, y⟩ ⟨rect'.xmax, y + h⟩, rect')
  | Edge.Right =>
      let width := rect.x_span - value
      let w := rect.x_span - width
      let x := rect.xmin + width
      let rect' :=
        BBox.new2 ⟨rect.xmin, rect.ymin⟩ ⟨rect.xmin + width, rect.ymax⟩
      (BBox.new2 ⟨x, rect'.ymin⟩ ⟨x + w, rect'.ymax⟩, rect')

/-- The span of a box in the dimension an edge's thickness consumes
(height for `Top`/`Bottom`, width for `Left`/`Right`). -/
def Edge.thickness (e : Edge) (b : BBox) : ℚ :=
  match e with
  | Edge.Top => b.y_span
  | Edge.Bottom => b.y_span
  | Edge.Left => b.x_span
  | Edge.Right => b.x_span

/-- The carved box keeps the full extent of the original in the
dimension perpendicular to the split. -/
def Edge.keepsPerp (e : Edge) (orig c : BBox) : Prop :=
  match e with
  | Edge.Top => c.xmin = orig.xmin ∧ c.xmax = orig.xmax
  | Edge.Bottom => c.xmin = orig.xmin ∧ c.xmax = orig.xmax
  | Edge.Left => c.ymin = orig.ymin ∧ c.ymax = orig.ymax
  | Edge.Right => c.ymin = orig.ymin ∧ c.ymax = orig.ymax

/-- The carved box is flush against the named edge of the original. -/
def Edge.atEdge (e : Edge) (orig c : BBox) : Prop :=
  match e with
  | Edge.Top => c.ymin = orig.ymin
  | Edge.Bottom => c.ymax = orig.ymax
  | Edge.Left => c.xmin = orig.xmin
  | Edge.Right => c.xmax = orig.xmax

theorem split_top_eq (b : BBox) (t : ℚ) (hx : b.xmin ≤ b.xmax)
    (h0 : 0 ≤ t) (ht : t ≤ b.y_span) :
    Edge.Top.split b t =
      (⟨b.xmin, b.xmax, b.ymin, b.ymin + t⟩,
       ⟨b.xmin, b.xmax, b.ymin + t, b.ymax⟩) := by
  simp only [BBox.y_span] at ht
  simp only [Edge.split, BBox.new2, BBox.y_span, Prod.mk.injEq, BBox.mk.injEq]
  refine ⟨⟨?_, ?_, ?_, ?_⟩, ?_, ?_, ?_, ?_⟩ <;>
    (simp only [min_def, max_def]; split_ifs <;> linarith)

theorem split_bottom_eq (b : BBox) (t : ℚ) (hx : b.xmin ≤ b.xmax)
    (h0 : 0 ≤ t) (ht : t ≤ b.y_span) :
    Edge.Bottom.split b t =
      (⟨b.xmin, b.xmax, b.ymax - t, b.ymax⟩,
       ⟨b.xmin, b.xmax, b.ymin, b.ymax - t⟩) := by
  simp only [BBox.y_span] at ht
  simp only [Edge.split, BBox.new2, BBox.y_span, Prod.mk.injEq, BBox.mk.injEq]
  refine ⟨⟨?_, ?_, ?_, ?_⟩, ?_, ?_, ?_, ?_⟩ <;>
    (simp only [min_def, max_def]; split_ifs <;> linarith)

theorem split_left_eq (b : BBox) (t : ℚ) (hy : b.ymin ≤ b.ymax)
    (h0 : 0 ≤ t) (ht : t ≤ b.x_span) :
    Edge.Left.split b t =
      (⟨b.xmin, b.xmin + t, b.ymin, b.ymax⟩,
       ⟨b.xmin + t, b.xmax, b.ymin, b.ymax⟩) := by
  simp only [BBox.x_span] at ht
  simp only [Edge.split, BBox.new2, BBox.x_span, Prod.mk.injEq, BBox.mk.injEq]
  refine ⟨⟨?_, ?_, ?_, ?_⟩, ?_, ?_, ?_, ?_⟩ <;>
    (simp only [min_def, max_def]; split_ifs <;> linarith)

theorem split_right_eq (b : BBox) (t : ℚ) (hy : b.ymin ≤ b.ymax)
    (h0 : 0 ≤ t) (ht : t ≤ b.x_span) :
    Edge.Right.split b t =
      (⟨b.xmax - t, b.xmax, b.ymin, b.ymax⟩,
       ⟨b.xmin, b.xmax - t, b.ymin, b.ymax⟩) := by
  simp only [BBox.x_span] at ht
  simp only [Edge.split, BBox.new2, BBox.x_span, Prod.mk.injEq, BBox.mk.injEq]
  refine ⟨⟨?_, ?_, ?_, ?_⟩, ?_, ?_, ?_, ?_⟩ <;>
    (simp only [min_def, max_def]; split_ifs <;> linarith)

/-- Cutting a closed interval at an inner point covers it exactly. -/
theorem interval_cut {a m c v : ℚ} (h1 : a ≤ m) (h2 : m ≤ c) :
    (a ≤ v ∧ v ≤ c) ↔ ((a ≤ v ∧ v ≤ m) ∨ (m ≤ v ∧ v ≤ c)) := by
  constructor
  · rintro ⟨hv1, hv2⟩
    rcases le_total v m with h | h
    · exact Or.inl ⟨hv1, h⟩
    · exact Or.inr ⟨h, hv2⟩
  · rintro (⟨hv1, hv2⟩ | ⟨hv1, hv2⟩)
    · exact ⟨hv1, hv2.trans h2⟩
    · exact ⟨h1.trans hv1, hv2⟩

/-- C2: splitting a rectangle on an edge with `0 ≤ t ≤` the available
span partitions it exactly: areas add up, every point of the original
lies in the carved piece or the remainder (and conversely), interiors
are disjoint, the carved piece keeps the full perpendicular extent and
sits flush against the named edge; the `{0,0,1000,500}` / `Top` / `100`
scenario yields carved `{0,0,1000,100}` and remainder
`{0,100,1000,400}`. -/
theorem split_partitions_exactly (b : BBox) (e : Edge) (t : ℚ)
    (hx : b.xmin ≤ b.xmax) (hy : b.ymin ≤ b.ymax)
    (h0 : 0 ≤ t) (ht : t ≤ e.thickness b) :
    ((e.split b t).1.area + (e.split b t).2.area = b.area)
    ∧ (∀ p : Pt, b.memB p ↔ ((e.split b t).1.memB p ∨ (e.split b t).2.memB p))
    ∧ (∀ p : Pt, ¬((e.split b t).1.interiorB p ∧ (e.split b t).2.interiorB p))
    ∧ e.keepsPerp b (e.split b t).1
    ∧ e.atEdge b (e.split b t).1
    ∧ Edge.Top.split ⟨0, 1000, 0, 500⟩ 100
        = (⟨0, 1000, 0, 100⟩, ⟨0, 1000, 100, 500⟩) := by
  have scenario : Edge.Top.split ⟨0, 1000, 0, 500⟩ 100
      = (⟨0, 1000, 0, 100⟩, ⟨0, 1000, 100, 500⟩) := by
    simp only [Edge.split, BBox.new2, BBox.y_span]
    norm_num [min_def, max_def]
  cases e with
  | Top =>
      simp only [Edge.thickness] at ht
      rw [split_top_eq b t hx h0 ht]
      have hcut : ∀ v : ℚ, (b.ymin ≤ v ∧ v ≤ b.ymax) ↔
          ((b.ymin ≤ v ∧ v ≤ b.ymin + t) ∨ (b.ymin + t ≤ v ∧ v ≤ b.ymax)) :=
        fun v => interval_cut (by linarith) (by simp only [BBox.y_span] at ht; linarith)
      refine ⟨?_, ?_, ?_, ?_, ?_, scenario⟩
      · simp only [BBox.area, BBox.x_span, BBox.y_span]; ring
      · intro p
        have h := hcut p.y
        simp only [BBox.memB]
        tauto
      · rintro p ⟨h1, h2⟩
        simp only [BBox.interiorB] at h1 h2
        linarith [h1.2.2.2, h2.2.2.1]
      · exact ⟨rfl, rfl⟩
      · rfl
  | Bottom =>
      simp only [Edge.thickness] at ht
      rw [split_bottom_eq b t hx h0 ht]
      have hcut : ∀ v : ℚ, (b.ymin ≤ v ∧ v ≤ b.ymax) ↔
          ((b.ymin ≤ v ∧ v ≤ b.ymax - t) ∨ (b.ymax - t ≤ v ∧ v ≤ b.ymax)) :=
        fun v => interval_cut (by simp only [BBox.y_span] at ht; linarith) (by linarith)
      refine ⟨?_, ?_, ?_, ?_, ?_, scenario⟩
      · simp only [BBox.area, BBox.x_span, BBox.y_span]; ring
      · intro p
        have h := hcut p.y
        simp only [BBox.memB]
        tauto
      · rintro p ⟨h1, h2⟩
        simp only [BBox.interiorB] at h1 h2
        linarith [h1.2.2.1, h2.2.2.2]
      · exact ⟨rfl, rfl⟩
      · rfl
  | Left =>
      simp only [Edge.thickness] at ht
      rw [split_left_eq b t hy h0 ht]
      have hcut : ∀ v : ℚ, (b.xmin ≤ v ∧ v ≤ b.xmax) ↔
          ((b.xmin ≤ v ∧ v ≤ b.xmin + t) ∨ (b.xmin + t ≤ v ∧ v ≤ b.xmax)) :=
        fun v => interval_cut (by linarith) (by simp only [BBox.x_span] at ht; linarith)
      refine ⟨?_, ?_, ?_, ?_, ?_, scenario⟩
      · simp only [BBox.area, BBox.x_span, BBox.y_span]; ring
      · intro p
        have h := hcut p.x
        simp only [BBox.memB]
        tauto
      · rintro p ⟨h1, h2⟩
        simp only [BBox.interiorB] at h1 h2
        linarith [h1.2.1, h2.1]
      · exact ⟨rfl, rfl⟩
      · rfl
  | Right =>
      simp only [Edge.thickness] at ht
      rw [split_right_eq b t hy h0 ht]
      have hcut : ∀ v : ℚ, (b.xmin ≤ v ∧ v ≤ b.xmax) ↔
          ((b.xmin ≤ v ∧ v ≤ b.xmax - t) ∨ (b.xmax - t ≤ v ∧ v ≤ b.xmax)) :=
        fun v => interval_cut (by simp only [BBox.x_span] at ht; linarith) (by linarith)
      refine ⟨?_, ?_, ?_, ?_, ?_, scenario⟩
      · simp only [BBox.area, BBox.x_span, BBox.y_span]; ring
      · intro p
        have h := hcut p.x
        simp only [BBox.memB]
        tauto
      · rintro p ⟨h1, h2⟩
        simp only [BBox.interiorB] at h1 h2
        linarith [h1.1, h2.2.1]
      · exact ⟨rfl, rfl⟩
      · rfl

/-- C2 witness: the theorem applied to the spec's own scenario,
rectangle `{x:0, y:0, width:1000, height:500}` split on `Top` with
thickness `100`. -/
theorem split_partitions_exactly_witness :
    (0 : ℚ) ≤ 100 ∧ 100 ≤ Edge.Top.thickness ⟨0, 1000, 0, 500⟩ ∧
    (((Edge.Top.split ⟨0, 1000, 0, 500⟩ 100).1.area
        + (Edge.Top.split ⟨0, 1000, 0, 500⟩ 100).2.area
        = BBox.area ⟨0, 1000, 0, 500⟩)
      ∧ (∀ p : Pt, BBox.memB ⟨0, 1000, 0, 500⟩ p ↔
          ((Edge.Top.split ⟨0, 1000, 0, 500⟩ 100).1.memB p
            ∨ (Edge.Top.split ⟨0, 1000, 0, 500⟩ 100).2.memB p))
      ∧ (∀ p : Pt, ¬((Edge.Top.split ⟨0, 1000, 0, 500⟩ 100).1.interiorB p
            ∧ (Edge.Top.split ⟨0, 1000, 0, 500⟩ 100).2.interiorB p))
      ∧ Edge.Top.keepsPerp ⟨0, 1000, 0, 500⟩ (Edge.Top.split ⟨0, 1000, 0, 500⟩ 100).1
      ∧ Edge.Top.atEdge ⟨0, 1000, 0, 500⟩ (Edge.Top.split ⟨0, 1000, 0, 500⟩ 100).1
      ∧ Edge.Top.split ⟨0, 1000, 0, 500⟩ 100
          = (⟨0, 1000, 0, 100⟩, ⟨0, 1000, 100, 500⟩)) :=
  ⟨by norm_num, by simp only [Edge.thickness, BBox.y_span]; norm_num,
    split_partitions_exactly ⟨0, 1000, 0, 500⟩ Edge.Top 100
      (by norm_num) (by norm_num) (by norm_num)
      (by simp only [Edge.thickness, BBox.y_span]; norm_num)⟩

/-- C1: `Edge::split` does NOT clamp an over-large thickness.  On the
square `{0,0,10,10}` a `Top` split with thickness `15` carves a box of
height `15` (more than the whole remaining span of `10`) and leaves a
remainder of height `5` (not `0`): `BBox::new`'s point normalization
merely re-orders the inverted corners instead of saturating. -/
theorem split_no_clamping_eval :
    Edge.Top.split ⟨0, 10, 0, 10⟩ 15 = (⟨0, 10, 0, 15⟩, ⟨0, 10, 10, 15⟩)
    ∧ (Edge.Top.split ⟨0, 10, 0, 10⟩ 15).2.y_span = 5
    ∧ (Edge.Top.split ⟨0, 10, 0, 10⟩ 15).1.y_span = 15
    ∧ BBox.y_span ⟨0, 10, 0, 10⟩ = 10 := by
  have h : Edge.Top.split ⟨0, 10, 0, 10⟩ 15
      = (⟨0, 10, 0, 15⟩, ⟨0, 10, 10, 15⟩) := by
    simp only [Edge.split, BBox.new2, BBox.y_span]
    norm_num [min_def, max_def]
  refine ⟨h, ?_, ?_, ?_⟩
  · rw [h]
    simp only [BBox.y_span]
    norm_num
  · rw [h]
    simp only [BBox.y_span]
    norm_num
  · simp only [BBox.y_span]
    norm_num

/-- `Anchor` from `src/text.rs`. -/
inductive Anchor where
  | Start
  | Middle
  | End
deriving DecidableEq, Repr

/-- `LabelPoint` from `src/text.rs`. -/
inductive LabelPoint where
  | Minimum
  | Center
  | Maximum
deriving DecidableEq, Repr

/-- `VerticalOffset` from `src/text.rs`. -/
inductive VerticalOffset where
  | Below
  | At
  | Above
deriving DecidableEq, Repr

/-- `Label` from `src/text.rs`. -/
structure Label where
  point : LabelPoint
  offset : VerticalOffset
  anchor : Anchor
  precision : Option ℕ
deriving DecidableEq, Repr

/-- `Label::new` / `Label::default` from `src/text.rs`. -/
def Label.new : Label :=
  ⟨LabelPoint.Center, VerticalOffset.At, Anchor.Middle, none⟩

/-- `Tick` from `src/text.rs`: a tick value paired with its label
text. -/
structure Tick where
  value : ℚ
  text : String
deriving DecidableEq, Repr

/-- `axis::Horizontal` from `src/axis.rs`. -/
structure Horizontal where
  edge : Edge
  ticks : List Tick
  name : Option String
  label : Label
deriving DecidableEq, Repr

/-- `axis::Vertical` from `src/axis.rs`. -/
structure Vertical where
  edge : Edge
  ticks : List Tick
  name : Option String
  label : Label
deriving DecidableEq, Repr

/-- `Horizontal::space` from `src/axis.rs`: 160 when the axis has a
name, 80 otherwise (`u16` pixels). -/
def Horizontal.space (a : Horizontal) : ℕ :=
  match a.name with
  | some _ => 160
  | none => 80

/-- `Vertical::space` from `src/axis.rs`. -/
def Vertical.space (a : Vertical) : ℕ :=
  match a.name with
  | some _ => 160
  | none => 80

/-- `<Horizontal as sealed::Axis>::split` from `src/axis.rs`: carve the
axis's space from its edge.  The Rust method mutates `area` into the
remainder and returns the carved box; here the pair
`(carved, remainder)` is returned. -/
def Horizontal.split (a : Horizontal) (area : BBox) : BBox × BBox :=
  a.edge.split area (a.space : ℚ)

/-- `<Vertical as sealed::Axis>::split` from `src/axis.rs`. -/
def Vertical.split (a : Vertical) (area : BBox) : BBox × BBox :=
  a.edge.split area (a.space : ℚ)

/-- A boxed `dyn Axis`: the sealed trait has exactly the two
implementors `Horizontal` and `Vertical`. -/
inductive AxisBox where
  | horizontal (a : Horizontal)
  | vertical (a : Vertical)
deriving DecidableEq, Repr

/-- Dynamic dispatch of the sealed `Axis::split`. -/
def AxisBox.split (ax : AxisBox) (area : BBox) : BBox × BBox :=
  match ax with
  | AxisBox.horizontal a => a.split area
  | AxisBox.vertical a => a.split area

/-- `AspectRatio` from `src/page.rs` (`Ratio` dropped from the Lean
name). -/
inductive Aspect where
  | Landscape
  | Square
  | Portrait
deriving DecidableEq, Repr

/-- `AspectRatio::rect` from `src/page.rs`. -/
def Aspect.rect : Aspect → BBox
  | Aspect.Landscape => BBox.new2 ⟨0, 0⟩ ⟨2000, 1500⟩
  | Aspect.Square => BBox.new2 ⟨0, 0⟩ ⟨2000, 2000⟩
  | Aspect.Portrait => BBox.new2 ⟨0, 0⟩ ⟨1500, 2000⟩

/-- `inset` from `src/chart.rs`: move the min corner in by `value` and
the max corner back by `value`, renormalizing through `BBox::from`. -/
def inset (bbox : BBox) (value : ℚ) : BBox :=
  BBox.new2 ⟨bbox.xmin + value, bbox.ymin + value⟩
    ⟨bbox.xmax - value, bbox.ymax - value⟩

/-- `Title` from `src/chart.rs`. -/
structure Title where
  text : String
  anchor : Anchor
  edge : Edge
deriving DecidableEq, Repr

/-- The three plot kinds of `src/chart.rs`. -/
inductive PlotKind where
  | Area
  | Line
  | Scatter
deriving DecidableEq, Repr

/-- `Chart` from `src/chart.rs` (the layout-relevant state: plots are
kept only by kind, since their data never influences the layout). -/
structure Chart where
  aspect : Aspect
  titles : List Title
  axes : List AxisBox
  plots : List PlotKind

/-- `Chart::area` from `src/chart.rs`: inset the aspect-ratio rectangle
by 40, carve 100 from each title's edge, then carve each axis's space;
the remainder is the plot body (used for the `clipPath` in `defs`). -/
def Chart.area (c : Chart) : BBox :=
  let area := inset c.aspect.rect 40
  let area := c.titles.foldl (fun a t => (t.edge.split a 100).2) area
  let area := c.axes.foldl (fun a ax => (ax.split a).2) area
  area

/-- The layout computation of `Chart::body` from `src/chart.rs`: the
same splitting sequence, but collecting each axis's carved rectangle
(which `body` hands to `Axis::display`); the second component is the
area the plots are drawn into. -/
def Chart.bodyLayout (c : Chart) : List BBox × BBox :=
  let area := inset c.aspect.rect 40
  let area := c.titles.foldl (fun a t => (t.edge.split a 100).2) area
  c.axes.foldl
    (fun (st : List BBox × BBox) ax =>
      let r := ax.split st.2
      (st.1 ++ [r.1], r.2))
    ([], area)

theorem foldl_axes_snd (l : List AxisBox) (acc : List BBox) (a : BBox) :
    (l.foldl
      (fun (st : List BBox × BBox) ax =>
        let r := ax.split st.2
        (st.1 ++ [r.1], r.2))
      (acc, a)).2
    = l.foldl (fun a ax => (ax.split a).2) a := by
  induction l generalizing acc a with
  | nil => rfl
  | cons hd tl ih => exact ih (acc ++ [(hd.split a).1]) (hd.split a).2

/-- For any nonnegative thickness, the carved box of `Edge::split` has
exactly that thickness in the edge's dimension (the source computes
`h = span - (span - value) = value` and the carved corners are `value`
apart). -/
theorem split_carved_thickness (e : Edge) (b : BBox) (t : ℚ) (h0 : 0 ≤ t) :
    e.thickness (e.split b t).1 = t := by
  cases e <;>
    · simp only [Edge.split, BBox.new2, Edge.thickness, BBox.y_span,
        BBox.x_span, min_def, max_def]
      split_ifs <;> linarith

/-- C9: each axis's required space is one of exactly two fixed pixel
thicknesses, decided only by whether the axis has a name (160 with a
name, 80 without, and 80 < 160), and the axis's `split` carves exactly
that thickness from the axis's configured edge. -/
theorem axis_space_two_tiers (h : Horizontal) (v : Vertical) (area : BBox) :
    h.space = (if h.name.isSome then 160 else 80)
    ∧ v.space = (if v.name.isSome then 160 else 80)
    ∧ (80 : ℕ) < 160
    ∧ h.split area = h.edge.split area (h.space : ℚ)
    ∧ v.split area = v.edge.split area (v.space : ℚ)
    ∧ h.edge.thickness (h.split area).1 = (h.space : ℚ)
    ∧ v.edge.thickness (v.split area).1 = (v.space : ℚ) := by
  refine ⟨?_, ?_, by norm_num, rfl, rfl, ?_, ?_⟩
  · cases hn : h.name <;> simp [Horizontal.space, hn]
  · cases hn : v.name <;> simp [Vertical.space, hn]
  · exact split_carved_thickness h.edge area (h.space : ℚ) (by positivity)
  · exact split_carved_thickness v.edge area (v.space : ℚ) (by positivity)

/-- C10: the plot-body rectangle `Chart::body` arrives at before
drawing plots is exactly the rectangle `Chart::area` computes for the
SVG clip path: both inset the aspect rectangle by 40, carve 100 per
title and each axis's space, in the same order. -/
theorem body_area_matches_clip_area (c : Chart) :
    (Chart.bodyLayout c).2 = Chart.area c := by
  unfold Chart.bodyLayout Chart.area
  exact foldl_axes_snd c.axes []
    (c.titles.foldl (fun a t => (t.edge.split a 100).2) (inset c.aspect.rect 40))

/-- Modelled from the spec: the crate declares `mod scale` in
`src/lib.rs` but `scale.rs` is not among the provided sources; only its
callers (`src/plot.rs`, `src/axis.rs`) and the sealed trait declaration
(`src/private.rs`) are.  Per the spec's data model, a numeric scale is
a domain `[lo, hi]` plus an inversion flag. -/
structure Numeric where
  lo : ℚ
  hi : ℚ
  flip : Bool
deriving DecidableEq, Repr

/-- Modelled from the spec: `normalize(value) = (value - lo)/(hi - lo)`
except on a degenerate domain (`hi == lo`) where it is the fixed
constant `0.5`; an inverted scale returns `1 - ` that. -/
def Numeric.normalize (s : Numeric) (value : ℚ) : ℚ :=
  let b := if s.hi = s.lo then 1 / 2 else (value - s.lo) / (s.hi - s.lo)
  if s.flip then 1 - b else b

/-- Modelled from the spec: `inverted()` is a pure transform producing
a new scale (`Numeric::inverted` in the missing `scale.rs`). -/
def Numeric.invertedFn (s : Numeric) : Numeric :=
  ⟨s.lo, s.hi, !s.flip⟩

/-- Modelled from the spec: constructing a scale directly over bounds.
The trait declaration `SealedScale::from_data` in `src/private.rs` and
every caller in src/ show construction returns the scale itself, with
no error path. -/
def Numeric.from_domain (lo hi : ℚ) : Numeric :=
  ⟨lo, hi, false⟩

/-- Modelled from the spec: `Numeric::from_data(domain, |pt| pt.x())`
as called by `src/plot.rs` and `src/axis.rs` — the domain box's x
extent becomes the scale bounds. -/
def Numeric.from_data_x (domain : BBox) : Numeric :=
  Numeric.from_domain domain.xmin domain.xmax

/-- Modelled from the spec: `Numeric::from_data(domain, |pt| pt.y())`. -/
def Numeric.from_data_y (domain : BBox) : Numeric :=
  Numeric.from_domain domain.ymin domain.ymax

/-- C3: on a degenerate domain (`lo == hi`), `normalize` returns
exactly `0.5` for every input value, whether or not the scale is
inverted — a defined normal case, with no division by zero. -/
theorem normalize_degenerate (s : Numeric) (h : s.hi = s.lo) (v : ℚ) :
    s.normalize v = 1 / 2 := by
  simp only [Numeric.normalize, h, if_pos]
  cases s.flip <;> norm_num

/-- C3 witness: the degenerate scale over `[7, 7]` at input `42`. -/
theorem normalize_degenerate_witness :
    (Numeric.mk 7 7 false).hi = (Numeric.mk 7 7 false).lo
    ∧ (Numeric.mk 7 7 false).normalize 42 = 1 / 2 :=
  ⟨rfl, normalize_degenerate ⟨7, 7, false⟩ rfl 42⟩

/-- C5: `inverted()` returns a new scale over the same domain whose
`normalize` is `1 - normalize` of the original, for every value and
every scale; for the domain `[13, 190]` the inverted scale maps `190`
to `0` and `13` to `1`. -/
theorem inverted_complements (s : Numeric) :
    (s.invertedFn.lo = s.lo ∧ s.invertedFn.hi = s.hi)
    ∧ (∀ v : ℚ, s.invertedFn.normalize v = 1 - s.normalize v)
    ∧ (Numeric.from_domain 13 190).invertedFn.normalize 190 = 0
    ∧ (Numeric.from_domain 13 190).invertedFn.normalize 13 = 1 := by
  refine ⟨⟨rfl, rfl⟩, ?_, ?_, ?_⟩
  · intro v
    simp only [Numeric.normalize, Numeric.invertedFn]
    cases s.flip <;> simp
  · norm_num [Numeric.normalize, Numeric.invertedFn, Numeric.from_domain]
  · norm_num [Numeric.normalize, Numeric.invertedFn, Numeric.from_domain]

/-- C6 counterexample: constructing a scale from a domain with
`lo > hi` (here `lo = 5, hi = 3`) does not fail — it returns the scale
with the bounds stored exactly as given, and `normalize` operates on
it; there is no `InvalidDomain` error anywhere (`SealedScale::from_data`
returns `Self`, and every caller in src/ uses the result directly). -/
theorem from_domain_total_eval :
    Numeric.from_domain 5 3 = ⟨5, 3, false⟩
    ∧ (Numeric.from_domain 5 3).normalize 3 = 1 := by
  refine ⟨rfl, ?_⟩
  simp [Numeric.normalize, Numeric.from_domain]
  norm_num

/-- C6 amended: scale construction never fails; for every pair of
bounds (including `lo > hi`) a scale is returned with the bounds stored
as given — never swapped — and every later operation on it is total. -/
theorem from_domain_never_fails (lo hi : ℚ) :
    (Numeric.from_domain lo hi).lo = lo
    ∧ (Numeric.from_domain lo hi).hi = hi
    ∧ (Numeric.from_domain lo hi).flip = false :=
  ⟨rfl, rfl, rfl⟩

/-- C8: over a proper domain (`lo < hi`), the scale constructed from it
normalizes `lo` to `0` and `hi` to `1`, is monotone non-decreasing, and
stays in `[0, 1]` on the domain. -/
theorem normalize_unit_range (lo hi : ℚ) (h : lo < hi) :
    (Numeric.from_domain lo hi).normalize lo = 0
    ∧ (Numeric.from_domain lo hi).normalize hi = 1
    ∧ (∀ v w : ℚ, v ≤ w →
        (Numeric.from_domain lo hi).normalize v
          ≤ (Numeric.from_domain lo hi).normalize w)
    ∧ (∀ v : ℚ, lo ≤ v → v ≤ hi →
        0 ≤ (Numeric.from_domain lo hi).normalize v
          ∧ (Numeric.from_domain lo hi).normalize v ≤ 1) := by
  have hne : hi ≠ lo := ne_of_gt h
  have hpos : 0 < hi - lo := by linarith
  simp only [Numeric.normalize, Numeric.from_domain, if_neg hne,
    Bool.false_eq_true, if_false]
  refine ⟨by field_simp, by field_simp, ?_, ?_⟩
  · intro v w hvw
    apply div_le_div_of_nonneg_right _ hpos.le
    linarith
  · intro v h1 h2
    constructor
    · apply div_nonneg (by linarith) hpos.le
    · rw [div_le_one hpos]
      linarith

/-- Modelled from the spec: the nice-step computation of the missing
`scale.rs`.  Raw step `r = (hi - lo) / count`, `k = floor(log10 r)`,
normalize `m = r / 10^k`, round up to the smallest of `{1, 2, 5, 10}`
that is `≥ m`, and scale back by `10^k`. -/
def nice_step (lo hi : ℚ) (count : ℕ) : ℚ :=
  let r := (hi - lo) / count
  let k : ℤ := Int.log 10 r
  let m := r / (10 : ℚ) ^ k
  let f : ℚ := if m ≤ 1 then 1 else if m ≤ 2 then 2 else if m ≤ 5 then 5 else 10
  f * (10 : ℚ) ^ k

/-- Modelled from the spec: tick generation of the missing `scale.rs` —
ticks at `ceil(lo/step)*step, +step, …` up to and including the last
multiple `≤ hi`. -/
def tick_values (lo hi : ℚ) (count : ℕ) : List ℚ :=
  let step := nice_step lo hi count
  let i0 : ℤ := ⌈lo / step⌉
  let i1 : ℤ := ⌊hi / step⌋
  (List.range (i1 + 1 - i0).toNat).map
    (fun (j : ℕ) => ((i0 + (j : ℤ) : ℤ) : ℚ) * step)

theorem int_log_eq_of (r : ℚ) (k : ℤ) (hr : 0 < r)
    (h1 : ((10 : ℕ) : ℚ) ^ k ≤ r) (h2 : r < ((10 : ℕ) : ℚ) ^ (k + 1)) :
    Int.log 10 r = k := by
  have hb : 1 < 10 := by norm_num
  have ha : k ≤ Int.log 10 r := (Int.zpow_le_iff_le_log hb hr).mp h1
  have hc : Int.log 10 r < k + 1 := (Int.lt_zpow_iff_log_lt hb hr).mp h2
  omega

/-- The nice step is positive and at least the raw step
`(hi - lo) / count`. -/
theorem nice_step_bounds (lo hi : ℚ) (T : ℕ) (hlo : lo < hi) (hT : 1 ≤ T) :
    0 < nice_step lo hi T ∧ (hi - lo) / T ≤ nice_step lo hi T := by
  have hTq : (0 : ℚ) < T := by exact_mod_cast hT
  have hr : 0 < (hi - lo) / T := div_pos (by linarith) hTq
  have h1 : ((10 : ℕ) : ℚ) ^ Int.log 10 ((hi - lo) / T) ≤ (hi - lo) / T :=
    Int.zpow_log_le_self (by norm_num) hr
  have h2 : (hi - lo) / T
      < ((10 : ℕ) : ℚ) ^ (Int.log 10 ((hi - lo) / T) + 1) :=
    Int.lt_zpow_succ_log_self (by norm_num) _
  push_cast at h1 h2
  have hp : (0 : ℚ) < (10 : ℚ) ^ Int.log 10 ((hi - lo) / T) :=
    zpow_pos (by norm_num) _
  rw [nice_step]
  constructor
  · split_ifs <;> positivity
  · rw [zpow_add_one₀ (by norm_num : (10 : ℚ) ≠ 0)] at h2
    split_ifs with hm1 hm2 hm5
    · rw [div_le_one hp] at hm1
      linarith
    · rw [div_le_iff₀ hp] at hm2
      linarith
    · rw [div_le_iff₀ hp] at hm5
      linarith
    · linarith

/-- `f32::round` as used in `src/plot.rs`: round to the nearest
integer, ties away from zero. -/
def rustRound (q : ℚ) : ℤ :=
  if 0 ≤ q then ⌊q + 1 / 2⌋ else -⌊-q + 1 / 2⌋

/-- `x_norm` from `src/plot.rs`: normalize an `X` value through the
scale built from the domain box. -/
def x_norm (domain : BBox) (x : ℚ) : ℚ :=
  (Numeric.from_data_x domain).normalize x

/-- `y_norm` from `src/plot.rs`: normalize a `Y` value through the
inverted scale built from the domain box. -/
def y_norm (domain : BBox) (y : ℚ) : ℚ :=
  (Numeric.from_data_y domain).invertedFn.normalize y

/-- `x_map` from `src/plot.rs`. -/
def x_map (domain : BBox) (x : ℚ) (rect : BBox) : ℤ :=
  let rx := rect.xmin
  let rw := rect.x_span
  let mx := rx + rw * x_norm domain x
  rustRound mx

/-- `y_map` from `src/plot.rs`. -/
def y_map (domain : BBox) (y : ℚ) (rect : BBox) : ℤ :=
  let ry := rect.ymin
  let rh := rect.y_span
  let my := ry + rh * y_norm domain y
  rustRound my

/-- C7: both coordinate mappers compute
`rect.origin[dim] + rect.span[dim] * normalize(value)` and round it
with the one fixed rule `rustRound` (nearest integer, ties away from
zero): the rounding never strays more than `1/2` from the exact value,
and the tie-break rule is the same for every input (it commutes with
negation, which pins ties away from zero). -/
theorem coordinate_mapper_formula (domain : BBox) (xv yv : ℚ) (rect : BBox) :
    x_map domain xv rect
      = rustRound (rect.xmin + rect.x_span * (Numeric.from_data_x domain).normalize xv)
    ∧ y_map domain yv rect
      = rustRound (rect.ymin
          + rect.y_span * (Numeric.from_data_y domain).invertedFn.normalize yv)
    ∧ (∀ q : ℚ, |(rustRound q : ℚ) - q| ≤ 1 / 2)
    ∧ (∀ q : ℚ, rustRound (-q) = -rustRound q)
    ∧ rustRound (5 / 2) = 3 ∧ rustRound (-5 / 2) = -3 := by
  have hhalf : ∀ q : ℚ, 0 ≤ q → |(⌊q + 1 / 2⌋ : ℚ) - q| ≤ 1 / 2 := by
    intro q _
    rw [abs_le]
    constructor
    · have := Int.lt_floor_add_one (q + 1 / 2)
      linarith
    · have := Int.floor_le (q + 1 / 2)
      linarith
  have habs : ∀ q : ℚ, |(rustRound q : ℚ) - q| ≤ 1 / 2 := by
    intro q
    by_cases hq : 0 ≤ q
    · simpa [rustRound, hq] using hhalf q hq
    · have h2 : (0 : ℚ) ≤ -q := by linarith
      have := hhalf (-q) h2
      rw [rustRound, if_neg hq]
      push_cast
      rw [show (-(⌊-q + 1 / 2⌋ : ℚ) - q) = -((⌊-q + 1 / 2⌋ : ℚ) - -q) by ring,
        abs_neg]
      exact this
  have hneg : ∀ q : ℚ, rustRound (-q) = -rustRound q := by
    intro q
    rcases lt_trichotomy q 0 with h | h | h
    · have h1 : ¬(0 : ℚ) ≤ q := not_le.mpr h
      have h2 : (0 : ℚ) ≤ -q := by linarith
      simp [rustRound, h1, h2]
    · subst h
      simp [rustRound]
      norm_num
    · have h1 : (0 : ℚ) ≤ q := h.le
      have h2 : ¬(0 : ℚ) ≤ -q := by
        rw [not_le]
        linarith
      simp [rustRound, h1, h2]
  refine ⟨rfl, rfl, habs, hneg, ?_, ?_⟩
  · rw [rustRound, if_pos (by norm_num)]
    norm_num
  · rw [rustRound, if_neg (by norm_num)]
    norm_num

/-- C8 witness: the scale over `[0, 4]`, checked at `v = 1`. -/
theorem normalize_unit_range_witness :
    (0 : ℚ) < 4
    ∧ (Numeric.from_domain 0 4).normalize 0 = 0
    ∧ (Numeric.from_domain 0 4).normalize 4 = 1
    ∧ (0 ≤ (Numeric.from_domain 0 4).normalize 1
        ∧ (Numeric.from_domain 0 4).normalize 1 ≤ 1) :=
  ⟨by norm_num,
    (normalize_unit_range 0 4 (by norm_num)).1,
    (normalize_unit_range 0 4 (by norm_num)).2.1,
    (normalize_unit_range 0 4 (by norm_num)).2.2.2 1 (by norm_num) (by norm_num)⟩

/-- Strict increase, domain bounds and the `T + 1` length bound for the
generated ticks. -/
theorem ticks_props (lo hi : ℚ) (T : ℕ) (hlo : lo < hi) (hT : 1 ≤ T) :
    List.Pairwise (· < ·) (tick_values lo hi T)
    ∧ (∀ t ∈ tick_values lo hi T, lo ≤ t ∧ t ≤ hi)
    ∧ (tick_values lo hi T).length ≤ T + 1 := by
  obtain ⟨hs, hsr⟩ := nice_step_bounds lo hi T hlo hT
  have hTq : (0 : ℚ) < T := by exact_mod_cast hT
  unfold tick_values
  set s := nice_step lo hi T with hsdef
  set i0 : ℤ := ⌈lo / s⌉ with hi0def
  set i1 : ℤ := ⌊hi / s⌋ with hi1def
  have hlo_i0 : lo / s ≤ (i0 : ℚ) := Int.le_ceil _
  have hhi_i1 : (i1 : ℚ) ≤ hi / s := Int.floor_le _
  refine ⟨?_, ?_, ?_⟩
  · refine List.Pairwise.map _ ?_ (List.pairwise_lt_range _)
    intro a b hab
    have : ((i0 + a : ℤ) : ℚ) < ((i0 + b : ℤ) : ℚ) := by
      push_cast
      have : (a : ℚ) < b := by exact_mod_cast hab
      linarith
    exact mul_lt_mul_of_pos_right this hs
  · intro t ht
    rw [List.mem_map] at ht
    obtain ⟨j, hj, rfl⟩ := ht
    rw [List.mem_range] at hj
    have hj2 : (j : ℤ) < i1 + 1 - i0 := Int.lt_toNat.mp hj
    have hup : (i0 + j : ℤ) ≤ i1 := by omega
    have hdn : (i0 : ℤ) ≤ i0 + j := by omega
    constructor
    · have h1 : lo / s ≤ ((i0 + j : ℤ) : ℚ) := by
        refine hlo_i0.trans ?_
        exact_mod_cast hdn
      calc lo = (lo / s) * s := by field_simp
        _ ≤ ((i0 + j : ℤ) : ℚ) * s := mul_le_mul_of_nonneg_right h1 hs.le
    · have h1 : ((i0 + j : ℤ) : ℚ) ≤ hi / s := by
        refine le_trans ?_ hhi_i1
        exact_mod_cast hup
      calc ((i0 + j : ℤ) : ℚ) * s ≤ (hi / s) * s :=
            mul_le_mul_of_nonneg_right h1 hs.le
        _ = hi := by field_simp
  · rw [List.length_map, List.length_range]
    have hiq : (i1 : ℚ) - i0 ≤ (hi - lo) / s := by
      have := sub_le_sub hhi_i1 hlo_i0
      calc (i1 : ℚ) - i0 ≤ hi / s - lo / s := this
        _ = (hi - lo) / s := by ring
    have hrT : (hi - lo) / s ≤ T := by
      have hr0 : 0 < (hi - lo) / T := div_pos (by linarith) hTq
      have := div_le_div_of_nonneg_left (by linarith : (0:ℚ) ≤ hi - lo) hr0 hsr
      calc (hi - lo) / s ≤ (hi - lo) / ((hi - lo) / T) := this
        _ = T := by
          have hne : hi - lo ≠ 0 := by linarith
          rw [div_div_eq_mul_div, mul_comm (hi - lo) (T : ℚ), mul_div_assoc,
            div_self hne, mul_one]
    have : (i1 : ℚ) - i0 ≤ T := hiq.trans hrT
    have hz : i1 - i0 ≤ (T : ℤ) := by exact_mod_cast this
    omega

/-- The ticks are the consecutive multiples of the step from
`ceil(lo/step)` up to `floor(hi/step)`. -/
theorem ticks_more (lo hi : ℚ) (T : ℕ) :
    List.Chain' (fun a b => b = a + nice_step lo hi T) (tick_values lo hi T)
    ∧ (∀ t ∈ tick_values lo hi T, ∃ i : ℤ,
        t = (i : ℚ) * nice_step lo hi T
        ∧ ⌈lo / nice_step lo hi T⌉ ≤ i ∧ i ≤ ⌊hi / nice_step lo hi T⌋)
    ∧ (∀ i : ℤ, ⌈lo / nice_step lo hi T⌉ ≤ i → i ≤ ⌊hi / nice_step lo hi T⌋ →
        (i : ℚ) * nice_step lo hi T ∈ tick_values lo hi T)
    ∧ (tick_values lo hi T ≠ [] →
        (tick_values lo hi T).head?
          = some ((⌈lo / nice_step lo hi T⌉ : ℚ) * nice_step lo hi T)) := by
  unfold tick_values
  set s := nice_step lo hi T with hsdef
  set i0 : ℤ := ⌈lo / s⌉ with hi0def
  set i1 : ℤ := ⌊hi / s⌋ with hi1def
  refine ⟨?_, ?_, ?_, ?_⟩
  · rw [List.chain'_map]
    rcases hn : (i1 + 1 - i0).toNat with _ | m
    · exact List.chain'_nil
    · rw [List.chain'_range_succ]
      intro a _
      push_cast
      ring
  · intro t ht
    rw [List.mem_map] at ht
    obtain ⟨j, hj, rfl⟩ := ht
    rw [List.mem_range] at hj
    have hj2 : (j : ℤ) < i1 + 1 - i0 := Int.lt_toNat.mp hj
    exact ⟨i0 + j, rfl, by omega, by omega⟩
  · intro i h1 h2
    rw [List.mem_map]
    refine ⟨(i - i0).toNat, ?_, ?_⟩
    · rw [List.mem_range]
      omega
    · have : (i0 + ((i - i0).toNat : ℤ) : ℤ) = i := by omega
      rw [this]
  · intro hne
    dsimp only at hne ⊢
    rcases hn : (⌊hi / s⌋ + 1 - ⌈lo / s⌉).toNat with _ | m
    · rw [hn] at hne
      simp at hne
    · rw [List.range_succ_eq_map]
      simp only [List.map_cons, List.head?_cons]
      norm_num

/-- Scenario: the domain `[0, 100]` with target count 5 snaps the step
to 20. -/
theorem nice_step_scenario : nice_step 0 100 5 = 20 := by
  have h : Nat.log 10 20 = 1 :=
    Nat.log_eq_of_pow_le_of_lt_pow (by norm_num) (by norm_num)
  norm_num [nice_step, h]

/-- Scenario: domain `[0, 100]`, target 5 yields ticks
`[0, 20, 40, 60, 80, 100]`. -/
theorem tick_values_scenario : tick_values 0 100 5 = [0, 20, 40, 60, 80, 100] := by
  have h : Nat.log 10 20 = 1 :=
    Nat.log_eq_of_pow_le_of_lt_pow (by norm_num) (by norm_num)
  norm_num [tick_values, nice_step, h]
  norm_num [show Int.toNat 6 = 6 from rfl, List.range_succ]

/-- C4 (amended): for every proper domain `lo < hi` and target count
`T ≥ 1`, the generated ticks are exactly the consecutive multiples of
the nice step from `ceil(lo/step)*step` to the last multiple `≤ hi`;
they are strictly increasing, each lies in `[lo, hi]`, and there are at
most `T + 1` of them (the count can undershoot the target by more than
2, so the two-sided `±2` bound of the claim is dropped); domain
`[0, 100]` with target 5 snaps the step to 20 and yields
`[0, 20, 40, 60, 80, 100]`. -/
theorem tick_generation_amended (lo hi : ℚ) (T : ℕ) (hlo : lo < hi) (hT : 1 ≤ T) :
    List.Pairwise (· < ·) (tick_values lo hi T)
    ∧ List.Chain' (fun a b => b = a + nice_step lo hi T) (tick_values lo hi T)
    ∧ (∀ t ∈ tick_values lo hi T, lo ≤ t ∧ t ≤ hi)
    ∧ (∀ t ∈ tick_values lo hi T, ∃ i : ℤ,
        t = (i : ℚ) * nice_step lo hi T
        ∧ ⌈lo / nice_step lo hi T⌉ ≤ i ∧ i ≤ ⌊hi / nice_step lo hi T⌋)
    ∧ (∀ i : ℤ, ⌈lo / nice_step lo hi T⌉ ≤ i → i ≤ ⌊hi / nice_step lo hi T⌋ →
        (i : ℚ) * nice_step lo hi T ∈ tick_values lo hi T)
    ∧ (tick_values lo hi T).length ≤ T + 1
    ∧ (tick_values lo hi T ≠ [] →
        (tick_values lo hi T).head?
          = some ((⌈lo / nice_step lo hi T⌉ : ℚ) * nice_step lo hi T))
    ∧ nice_step 0 100 5 = 20
    ∧ tick_values 0 100 5 = [0, 20, 40, 60, 80, 100] := by
  obtain ⟨h1, h2, h3⟩ := ticks_props lo hi T hlo hT
  obtain ⟨h4, h5, h6, h7⟩ := ticks_more lo hi T
  exact ⟨h1, h4, h2, h5, h6, h3, h7, nice_step_scenario, tick_values_scenario⟩

/-- C4 counterexample: for the domain `[0, 21/2]` with target count
10, the nice step snaps to 2 and only 6 ticks are generated — the
count differs from the target by 4, refuting the claim that it is
always within ±2 of the target. -/
theorem tick_count_undershoots_target :
    tick_values 0 (21 / 2) 10 = [0, 2, 4, 6, 8, 10]
    ∧ (tick_values 0 (21 / 2) 10).length + 2 < 10 := by
  have h : Int.log 10 (21 / 20 : ℚ) = 0 := by
    apply int_log_eq_of _ 0 (by norm_num) <;> push_cast <;> norm_num
  have hlist : tick_values 0 (21 / 2) 10 = [0, 2, 4, 6, 8, 10] := by
    norm_num [tick_values, nice_step, h]
    norm_num [show Int.toNat 6 = 6 from rfl, List.range_succ]
  exact ⟨hlist, by rw [hlist]; norm_num⟩

/-- C4 witness: the amended theorem applied to the domain `[0, 100]`
with target count 5. -/
theorem tick_generation_amended_witness :
    (0 : ℚ) < 100 ∧ (1 ≤ 5)
    ∧ (List.Pairwise (· < ·) (tick_values 0 100 5)
      ∧ List.Chain' (fun a b => b = a + nice_step 0 100 5) (tick_values 0 100 5)
      ∧ (∀ t ∈ tick_values 0 100 5, (0 : ℚ) ≤ t ∧ t ≤ 100)
      ∧ (∀ t ∈ tick_values 0 100 5, ∃ i : ℤ,
          t = (i : ℚ) * nice_step 0 100 5
          ∧ ⌈(0 : ℚ) / nice_step 0 100 5⌉ ≤ i ∧ i ≤ ⌊(100 : ℚ) / nice_step 0 100 5⌋)
      ∧ (∀ i : ℤ, ⌈(0 : ℚ) / nice_step 0 100 5⌉ ≤ i →
          i ≤ ⌊(100 : ℚ) / nice_step 0 100 5⌋ →
          (i : ℚ) * nice_step 0 100 5 ∈ tick_values 0 100 5)
      ∧ (tick_values 0 100 5).length ≤ 5 + 1
      ∧ (tick_values 0 100 5 ≠ [] →
          (tick_values 0 100 5).head?
            = some ((⌈(0 : ℚ) / nice_step 0 100 5⌉ : ℚ) * nice_step 0 100 5))
      ∧ nice_step 0 100 5 = 20
      ∧ tick_values 0 100 5 = [0, 20, 40, 60, 80, 100]) :=
  ⟨by norm_num, by norm_num,
    tick_generation_amended 0 100 5 (by norm_num) (by norm_num)⟩

end Splotch
